import Mathlib

/-!
Verification development for the taemno-env repository: a shallow embedding
of the secret-reference resolution engine (`resolveSecrets` in utility.js),
the verification engine (`verifyEnvironment` in src/index.js), the darwin
keychain provider (src/providers/darwin.js) and the provider selector
(providers/index.js), together with theorems settling the specification
claims. Strings are modelled as `List Char`; JavaScript exceptions are
modelled with `Except`.
-/

namespace TaemnoEnv

/-- Character list: the model of a JavaScript string. -/
abbrev Str := List Char

/-- Values of an environment mapping: strings are processed, every other
JavaScript value is passed through unchanged and is modelled opaquely. -/
inductive JSVal where
  | str (s : Str)
  | nonstr (tag : Nat)
deriving DecidableEq, Repr

/-! ## The compiled matching pattern

Both engines build the same regular expression (utility.js line 15 and
index.js line 82):
  `new RegExp(pfx.replace($→\$, (→\() + "(.+?)" + sfx.replace()→\)), "g")`.
Only `$` and `(` are escaped in the prefix and only `)` in the suffix.
After this partial escaping, the patterns used by the repository fall in a
small regex fragment: a sequence of single-character atoms (literal
characters and the `.` wildcard) around one lazy non-empty capture `(.+?)`.
The fragment is modelled exactly; pattern strings that would use any other
regex metacharacter are outside the model and compilation returns `none`
for them. -/

/-- One single-character atom of the compiled pattern: a literal character,
or the `.` wildcard (any character except a line terminator). -/
inductive Atom where
  | lit (c : Char)
  | dot
deriving DecidableEq, Repr

/-- Line terminators, which the `.` wildcard does not match in JavaScript. -/
def isLineTerm (c : Char) : Bool :=
  c = '\n' || c = '\r' || c = Char.ofNat 0x2028 || c = Char.ofNat 0x2029

/-- Whether a pattern atom matches one character. -/
def atomMatches : Atom → Char → Bool
  | .lit c, d => c = d
  | .dot, d => !isLineTerm d

/-- Global replacement of one character by a backslash-escaped copy,
modelling `s.replace(/c/g, "\\c")` on the pattern string. -/
def escGlobal (t : Char) : Str → Str
  | [] => []
  | c :: cs => if c = t then '\\' :: c :: escGlobal t cs else c :: escGlobal t cs

/-- Escaping applied to the configured prefix before pattern compilation
(utility.js line 15, index.js line 82): first every `$`, then every `(`. -/
def escPfx (p : Str) : Str := escGlobal '(' (escGlobal '$' p)

/-- Escaping applied to the configured suffix: every `)`. -/
def escSfx (s : Str) : Str := escGlobal ')' s

/-- Regex metacharacters whose unescaped occurrence puts a pattern outside
the modelled fragment. -/
def isRegexMeta (c : Char) : Bool :=
  c = '$' || c = '(' || c = ')' || c = '*' || c = '+' || c = '?' ||
  c = '[' || c = ']' || c = Char.ofNat 0x7b || c = Char.ofNat 0x7d ||
  c = '|' || c = '^' || c = '\\'

/-- Parse an escaped pattern string into atoms: `\c` is an identity escape
for punctuation, `.` is the wildcard, every other plain character matches
itself. Unescaped metacharacters (and escapes of alphanumerics, which have
special meanings in JavaScript) are outside the fragment. -/
def parseAtomsAux : Bool → Str → Option (List Atom)
  | false, [] => some []
  | true, [] => none
  | true, d :: rest =>
      if d.isAlphanum then none
      else (parseAtomsAux false rest).map (Atom.lit d :: ·)
  | false, c :: rest =>
      if c = '\\' then parseAtomsAux true rest
      else if c = '.' then (parseAtomsAux false rest).map (Atom.dot :: ·)
      else if isRegexMeta c then none
      else (parseAtomsAux false rest).map (Atom.lit c :: ·)

/-- Entry point of the pattern parser: no pending escape. -/
def parseAtoms (s : Str) : Option (List Atom) := parseAtomsAux false s

/-- Compilation of the matcher from the configured prefix and suffix,
mirroring the RegExp construction shared by both engines. -/
def compile (pfx sfx : Str) : Option (List Atom × List Atom) :=
  match parseAtoms (escPfx pfx), parseAtoms (escSfx sfx) with
  | some p, some s => some (p, s)
  | _, _ => none

/-! ## The matching engine

The compiled pattern is `preAtoms (.+?) sufAtoms`. All atoms consume
exactly one character deterministically, so the regex search is: try each
start position left to right; at a start position match the prefix atoms,
then extend the lazy capture one character at a time (shortest first, never
across a line terminator, at least one character) until the suffix atoms
match. -/

/-- Match a list of atoms against the front of a string, returning the
consumed characters and the rest. -/
def matchAtoms : List Atom → Str → Option (Str × Str)
  | [], s => some ([], s)
  | _ :: _, [] => none
  | a :: as, c :: cs =>
      if atomMatches a c then
        (matchAtoms as cs).map (fun p => (c :: p.1, p.2))
      else none

/-- Lazy matching of `(.+?)` followed by the suffix atoms: the shortest
non-empty capture of non-line-terminator characters after which the suffix
matches. Returns (capture, consumed suffix text, rest). -/
def lazyCapture (suf : List Atom) : Str → Option (Str × Str × Str)
  | [] => none
  | c :: cs =>
      if isLineTerm c then none
      else
        match matchAtoms suf cs with
        | some p => some ([c], p.1, p.2)
        | none => (lazyCapture suf cs).map (fun q => (c :: q.1, q.2.1, q.2.2))

/-- Try the whole pattern at the current position. Returns
(full match text, capture, rest after the match). -/
def execAtStart (pre suf : List Atom) (s : Str) : Option (Str × Str × Str) :=
  match matchAtoms pre s with
  | none => none
  | some p =>
      (lazyCapture suf p.2).map (fun q => (p.1 ++ q.1 ++ q.2.1, q.1, q.2.2))

/-- Leftmost match search: returns (text before the match, full match text,
capture, rest after the match). -/
def findMatch (pre suf : List Atom) : Str → Option (Str × Str × Str × Str)
  | [] =>
      (execAtStart pre suf []).map (fun r => ([], r.1, r.2.1, r.2.2))
  | c :: cs =>
      match execAtStart pre suf (c :: cs) with
      | some r => some ([], r.1, r.2.1, r.2.2)
      | none => (findMatch pre suf cs).map (fun r => (c :: r.1, r.2.1, r.2.2.1, r.2.2.2))

/-- Fuelled loop of `regex.exec` with the `g` flag: each successful match
advances past its full text, collecting (full match text, capture) pairs.
Every full match is non-empty, so `s.length + 1` units of fuel are enough;
`scanAll` below instantiates the fuel that way and `scanAllF_congr` shows
the result does not depend on the fuel once it is sufficient. -/
def scanAllF (pre suf : List Atom) : Nat → Str → List (Str × Str)
  | 0, _ => []
  | fuel + 1, s =>
      match findMatch pre suf s with
      | none => []
      | some r => (r.2.1, r.2.2.1) :: scanAllF pre suf fuel r.2.2.2

/-- All matches of the compiled pattern in a string, in left-to-right
order, as produced by the source's `while ((match = regex.exec(value)))`
loops. -/
def scanAll (pre suf : List Atom) (s : Str) : List (Str × Str) :=
  scanAllF pre suf (s.length + 1) s

/-! ## Splitting the capture into service and account

Both engines run `const [service, account] = path.split("/")`: the service
is element 0 of the split, the account is element 1 (or `undefined`, when
the capture has no `/`). -/

/-- JavaScript `String.prototype.split` with a one-character separator. -/
def jsSplit (sep : Char) : Str → List Str
  | [] => [[]]
  | c :: cs =>
      if c = sep then [] :: jsSplit sep cs
      else
        match jsSplit sep cs with
        | [] => [[c]]
        | p :: ps => (c :: p) :: ps

/-- The `service` half of a capture: element 0 of the split. -/
def serviceOf (cap : Str) : Str := (jsSplit '/' cap).headD []

/-- The `account` half of a capture: element 1 of the split, `none` when
the capture contains no `/` (JavaScript destructuring yields `undefined`,
and notably NOT the remainder after the first `/`). -/
def accountOf (cap : Str) : Option Str := (jsSplit '/' cap)[1]?

/-! ## JavaScript string replacement

`newValue.replace(fullMatch, secret)` (utility.js line 34) replaces the
first occurrence of `fullMatch` only, and the replacement string goes
through GetSubstitution: `$$`, `$&`, a dollar before a backquote, and a
dollar before an apostrophe are interpreted; any other `$` is literal. -/

/-- The backquote character (code 96). -/
def backquoteChar : Char := Char.ofNat 96

/-- The apostrophe character (code 39). -/
def aposChar : Char := Char.ofNat 39

/-- ECMAScript GetSubstitution for a string search (no capture groups):
`matched` is the matched text, `before` the part of the subject before the
match, `after` the part after it; the last argument is the replacement
template being processed. -/
def getSubstitution (matched before after : Str) : Str → Str
  | [] => []
  | c :: rest =>
      if c = '$' then
        match rest with
        | [] => ['$']
        | d :: rest2 =>
            if d = '$' then '$' :: getSubstitution matched before after rest2
            else if d = '&' then matched ++ getSubstitution matched before after rest2
            else if d = backquoteChar then before ++ getSubstitution matched before after rest2
            else if d = aposChar then after ++ getSubstitution matched before after rest2
            else '$' :: getSubstitution matched before after (d :: rest2)
      else c :: getSubstitution matched before after rest

/-- Locate the first occurrence of `pat` in a string, returning the parts
before and after it. -/
def splitOnFirst (pat : Str) : Str → Option (Str × Str)
  | [] => if pat = [] then some ([], []) else none
  | c :: cs =>
      if pat.isPrefixOf (c :: cs) then some ([], (c :: cs).drop pat.length)
      else (splitOnFirst pat cs).map (fun p => (c :: p.1, p.2))

/-- JavaScript `subject.replace(search, repl)` with a string search:
replace the first occurrence only, processing `repl` through
GetSubstitution; if there is no occurrence, the subject is unchanged. -/
def jsReplace (search repl subject : Str) : Str :=
  match splitOnFirst search subject with
  | none => subject
  | some p => p.1 ++ getSubstitution search p.1 p.2 repl ++ p.2

/-! ## The resolution engine (resolveSecrets, utility.js lines 13–47) -/

/-- The error message thrown by resolveSecrets when the provider's `get`
throws: it carries the key being processed and the cause's message
(utility.js line 36). -/
def resolveErrMsg (key cause : Str) : Str :=
  "Failed to resolve secret for ".data ++ key ++ ": ".data ++ cause

/-- The inner while loop of resolveSecrets over the matches of one value:
for each match, split the capture, call the provider's `get`, and apply
one `replace` to the accumulating new value; the first provider failure
aborts everything with the wrapping error. -/
def resolveLoop (get : Str → Option Str → Except Str Str) (key : Str) :
    List (Str × Str) → Str → Except Str Str
  | [], nv => .ok nv
  | m :: ms, nv =>
      match get (serviceOf m.2) (accountOf m.2) with
      | .error e => .error (resolveErrMsg key e)
      | .ok secret => resolveLoop get key ms (jsReplace m.1 secret nv)

/-- The resolution engine: iterate the entries in insertion order; scan
each string value against the original text; non-string values pass
through; a provider failure propagates and no mapping is returned. -/
def resolveSecrets (pre suf : List Atom) (get : Str → Option Str → Except Str Str) :
    List (Str × JSVal) → Except Str (List (Str × JSVal))
  | [] => .ok []
  | (k, .nonstr t) :: rest =>
      (resolveSecrets pre suf get rest).map ((k, .nonstr t) :: ·)
  | (k, .str v) :: rest =>
      match resolveLoop get k (scanAll pre suf v) v with
      | .error e => .error e
      | .ok nv => (resolveSecrets pre suf get rest).map ((k, .str nv) :: ·)

/-! ## The verification engine (verifyEnvironment, index.js lines 80–102) -/

/-- One element of `missingSecrets`: the key being processed and the
service/account halves of the unresolved reference. -/
structure MissingEntry where
  key : Str
  service : Str
  account : Option Str
deriving DecidableEq, Repr

/-- The inner while loop of verifyEnvironment over the matches of one
value: push an entry for every match whose secret the provider reports
absent. -/
def verifyValueLoop (exq : Str → Option Str → Bool) (key : Str) :
    List (Str × Str) → List MissingEntry → List MissingEntry
  | [], acc => acc
  | m :: ms, acc =>
      if exq (serviceOf m.2) (accountOf m.2) then
        verifyValueLoop exq key ms acc
      else
        verifyValueLoop exq key ms (acc ++ [⟨key, serviceOf m.2, accountOf m.2⟩])

/-- The entry loop of verifyEnvironment: only string values are scanned. -/
def verifyLoop (pre suf : List Atom) (exq : Str → Option Str → Bool) :
    List (Str × JSVal) → List MissingEntry → List MissingEntry
  | [], acc => acc
  | (k, .str v) :: rest, acc =>
      verifyLoop pre suf exq rest (verifyValueLoop exq k (scanAll pre suf v) acc)
  | (_, .nonstr _) :: rest, acc => verifyLoop pre suf exq rest acc

/-- The result of verifyEnvironment. -/
structure VerifyResult where
  success : Bool
  missingSecrets : List MissingEntry
deriving DecidableEq, Repr

/-- The verification engine: collect the missing entries over all entries,
then report success exactly when none were collected
(`missingSecrets.length === 0`). -/
def verifyEnvironment (pre suf : List Atom) (exq : Str → Option Str → Bool)
    (env : List (Str × JSVal)) : VerifyResult :=
  let ms := verifyLoop pre suf exq env []
  ⟨ms.length == 0, ms⟩

/-! ## Specification-side descriptions

These definitions follow the spec's words, to be compared with the
source-derived engines above. -/

/-- Modelled from the spec: the (service, account) pairs of the references
of one value, in left-to-right order. -/
def refsOf (pre suf : List Atom) (v : Str) : List (Str × Option Str) :=
  (scanAll pre suf v).map (fun m => (serviceOf m.2, accountOf m.2))

/-- Modelled from the spec: the expected `missingSecrets` list — one entry
per reference occurrence whose secret the provider reports absent, in
insertion order of keys and left-to-right within each value. -/
def specMissingSecrets (pre suf : List Atom) (exq : Str → Option Str → Bool)
    (env : List (Str × JSVal)) : List MissingEntry :=
  env.flatMap (fun kv =>
    match kv.2 with
    | .str v =>
        ((scanAll pre suf v).filter
            (fun m => !(exq (serviceOf m.2) (accountOf m.2)))).map
          (fun m => ⟨kv.1, serviceOf m.2, accountOf m.2⟩)
    | .nonstr _ => [])

/-- First error message produced by `get` along a list of references. -/
def firstGetError (get : Str → Option Str → Except Str Str) :
    List (Str × Option Str) → Option Str
  | [] => none
  | r :: rs =>
      match get r.1 r.2 with
      | .error e => some e
      | .ok _ => firstGetError get rs

/-- The first provider failure hit by the resolution engine: the key being
processed and the cause's message. -/
def firstFailure (pre suf : List Atom) (get : Str → Option Str → Except Str Str) :
    List (Str × JSVal) → Option (Str × Str)
  | [] => none
  | (k, .str v) :: rest =>
      match firstGetError get (refsOf pre suf v) with
      | some e => some (k, e)
      | none => firstFailure pre suf get rest
  | (_, .nonstr _) :: rest => firstFailure pre suf get rest

/-- Whether an `Except` is an error. -/
def exIsError : Except Str Str → Bool
  | .error _ => true
  | .ok _ => false

/-- Whether the provider's `get` fails for some reference of some value of
the mapping. -/
def hasGetFailure (pre suf : List Atom) (get : Str → Option Str → Except Str Str)
    (env : List (Str × JSVal)) : Bool :=
  env.any (fun kv =>
    match kv.2 with
    | .str v => (refsOf pre suf v).any (fun r => exIsError (get r.1 r.2))
    | .nonstr _ => false)

/-- Whether no value of the mapping contains a reference. -/
def envNoRefs (pre suf : List Atom) (env : List (Str × JSVal)) : Bool :=
  env.all (fun kv =>
    match kv.2 with
    | .str v => (scanAll pre suf v).isEmpty
    | .nonstr _ => true)

/-! ## Default configuration (index.js lines 17–21) -/

/-- The default reference prefix. -/
def defaultPfx : Str := "$(taemno os://".data

/-- The default reference suffix. -/
def defaultSfx : Str := ")".data

/-- The prefix atoms the default configuration compiles to. -/
def defPre : List Atom := defaultPfx.map Atom.lit

/-- The suffix atoms the default configuration compiles to. -/
def defSuf : List Atom := [Atom.lit ')']

/-! ## The darwin provider (src/providers/darwin.js)

`isValidInput` tests its argument against `/^[a-zA-Z0-9._-@#]+$/`. In a
regex character class, `_-@` is a range from `_` (code 95) down to `@`
(code 64); an out-of-order range is an early SyntaxError in ECMAScript, so
this pattern does not compile and in JavaScript the whole module (and with
it everything that requires it) fails to load. The class-range parsing is
modelled below, and the SyntaxError is surfaced at the pattern's use site;
either way no call into the provider ever gets past validation. -/

/-- Errors of the darwin provider model. -/
inductive DarwinError where
  | invalidPattern
  | invalidInput (msg : Str)
  | keychainError (msg : Str)
deriving DecidableEq, Repr

/-- ECMAScript parsing of a character-class body into ranges: `c1-c2`
forms a range and is an error when `c1 > c2`; a trailing or isolated `-`
is a literal; any other character stands for itself. -/
def parseClassRanges : Str → Option (List (Char × Char))
  | [] => some []
  | c1 :: '-' :: c2 :: rest =>
      if c1 ≤ c2 then (parseClassRanges rest).map ((c1, c2) :: ·) else none
  | c :: rest => (parseClassRanges rest).map ((c, c) :: ·)

/-- The body of the character class in darwin.js line 29. -/
def darwinClassBody : Str := "a-zA-Z0-9._-@#".data

/-- Model of `isValidInput` (darwin.js lines 28–30): compile the validation
pattern, then require 1 to 255 characters all inside the class. The
compilation step fails on the out-of-order range. -/
def isValidInput (inp : Str) : Except DarwinError Bool :=
  match parseClassRanges darwinClassBody with
  | none => .error .invalidPattern
  | some ranges =>
      .ok (decide (1 ≤ inp.length) &&
        inp.all (fun c => ranges.any (fun r => r.1 ≤ c && c ≤ r.2)) &&
        decide (inp.length ≤ 255))

/-- Model of `validateInputs` (darwin.js lines 32–42): service, account,
and — when present and non-empty (JavaScript truthiness) — the keychain
name must validate; an invalid one raises InvalidInputError. -/
def validateInputs (service account : Str) (keychain : Option Str) :
    Except DarwinError Unit :=
  match isValidInput service with
  | .error e => .error e
  | .ok false => .error (.invalidInput "Invalid service name".data)
  | .ok true =>
      match isValidInput account with
      | .error e => .error e
      | .ok false => .error (.invalidInput "Invalid account name".data)
      | .ok true =>
          match keychain with
          | none => .ok ()
          | some k =>
              if k = [] then .ok ()
              else
                match isValidInput k with
                | .error e => .error e
                | .ok false => .error (.invalidInput "Invalid keychain name".data)
                | .ok true => .ok ()

/-- The apostrophe-quoted copy of a string, as built by the template
literal in darwin.js line 55. -/
def quoted (s : Str) : Str := aposChar :: s ++ [aposChar]

/-- The argv built by `set` (darwin.js line 55, before `-U -w` is
appended): the `-s` value carries literal apostrophes and `-a` is passed
twice, first with the service, then with the account. -/
def setArgs (service account : Str) : List Str :=
  ["add-generic-password".data, "-s".data, quoted service,
   "-a".data, service, "-a".data, account]

/-- The argv built by `get` (darwin.js line 93): the `-s` value is the
bare service. -/
def getArgs (service account : Str) : List Str :=
  ["find-generic-password".data, "-s".data, service, "-a".data, account, "-w".data]

/-- The value following the first occurrence of a flag in an argv. -/
def flagValue (flag : Str) : List Str → Option Str
  | f :: v :: rest => if f = flag then some v else flagValue flag (v :: rest)
  | _ => none

/-- Model of the macOS `security` backend (an external collaborator): a
store keyed by the service and account arguments it is invoked with. -/
structure Keychain where
  items : List ((Str × Str) × Str)
deriving DecidableEq, Repr

/-- Backend lookup by service and account. -/
def securityFind (kc : Keychain) (s a : Str) : Option Str :=
  (kc.items.find? (fun it => it.1 = (s, a))).map (·.2)

/-- Backend store of a secret under a service and account. -/
def securityAdd (kc : Keychain) (s a secret : Str) : Keychain :=
  ⟨((s, a), secret) :: kc.items.filter (fun it => decide (it.1 ≠ (s, a)))⟩

/-- Backend deletion of a secret. -/
def securityDelete (kc : Keychain) (s a : Str) : Keychain :=
  ⟨kc.items.filter (fun it => decide (it.1 ≠ (s, a)))⟩

/-- JavaScript whitespace trimmed by `String.prototype.trim`. -/
def isJsWs (c : Char) : Bool := c = ' ' || c = '\t' || c = '\n' || c = '\r'

/-- Model of `stdout.trim()` in darwin.js line 101. -/
def jsTrim (s : Str) : Str :=
  ((s.dropWhile isJsWs).reverse.dropWhile isJsWs).reverse

/-- Model of darwin `set` (lines 52–81): validate, delete any existing
item (errors ignored), then add under the argv's keys — the service key it
stores under is the QUOTED service and the effective `-a` value is the
account (the last `-a` wins). Returns the new backend state and `true`. -/
def setD (kc : Keychain) (service account secret : Str) (keychain : Option Str) :
    Except DarwinError (Keychain × Bool) :=
  match validateInputs service account keychain with
  | .error e => .error e
  | .ok () =>
      let kc1 := securityDelete kc service account
      .ok (securityAdd kc1 (quoted service) account secret, true)

/-- Model of darwin `get` (lines 90–105): validate, look the item up under
the bare service and account, trim the stdout; any failure becomes a
KeychainError whose message starts with `Secret not found`. -/
def getD (kc : Keychain) (service account : Str) (keychain : Option Str) :
    Except DarwinError Str :=
  match validateInputs service account keychain with
  | .error e => .error e
  | .ok () =>
      match securityFind kc service account with
      | some secret => .ok (jsTrim secret)
      | none =>
          .error (.keychainError
            ("Secret not found: ".data ++ service ++ "/".data ++ account))

/-- Model of darwin `exists` (lines 114–121): call `get` and translate ANY
failure — not-found, invalid input, backend error — into `false`. -/
def existsD (kc : Keychain) (service account : Str) (keychain : Option Str) : Bool :=
  match getD kc service account keychain with
  | .ok _ => true
  | .error _ => false

/-- Model of darwin `delete` (lines 130–145): validate, then delete; a
backend failure yields `false`, success `true`. -/
def deleteD (kc : Keychain) (service account : Str) (keychain : Option Str) :
    Except DarwinError (Keychain × Bool) :=
  match validateInputs service account keychain with
  | .error e => .error e
  | .ok () =>
      match securityFind kc service account with
      | some _ => .ok (securityDelete kc service account, true)
      | none => .ok (kc, false)

/-! ## Provider selection (providers/index.js) -/

/-- The one provider implementation present in the repository. -/
inductive ProviderTag where
  | darwin
deriving DecidableEq, Repr

/-- Errors while loading the provider selector module. -/
inductive LoadError where
  | badPattern
  | refError (name : Str)
  | unsupportedPlatform (p : Str)
deriving DecidableEq, Repr

/-- Model of `require("./darwin.js")` (providers/index.js line 7): loading
darwin.js evaluates its validation pattern, whose character class does not
compile, so the require fails on every platform. -/
def requireDarwin : Except LoadError ProviderTag :=
  match parseClassRanges darwinClassBody with
  | none => .error .badPattern
  | some _ => .ok .darwin

/-- Model of the provider selector (providers/index.js lines 7–28): the
unconditional require of darwin.js runs first; then the platform switch
assigns the darwin provider on `darwin`, evaluates the commented-out
identifiers `linuxProvider`/`win32Provider` on `linux`/`win32` (a
ReferenceError), and otherwise throws `Unsupported platform`. -/
def selectProvider (platform : Str) : Except LoadError ProviderTag :=
  match requireDarwin with
  | .error e => .error e
  | .ok d =>
      if platform = "darwin".data then .ok d
      else if platform = "linux".data then .error (.refError "linuxProvider".data)
      else if platform = "win32".data then .error (.refError "win32Provider".data)
      else .error (.unsupportedPlatform platform)

/-! ## Structural facts about the matching engine -/

/-- A successful atom match splits the subject. -/
theorem matchAtoms_parts :
    ∀ (as : List Atom) (s con rest : Str),
      matchAtoms as s = some (con, rest) → s = con ++ rest := by
  intro as
  induction as with
  | nil =>
      intro s con rest h
      simp [matchAtoms] at h
      simp [h.1, h.2]
  | cons a as ih =>
      intro s con rest h
      cases s with
      | nil => simp [matchAtoms] at h
      | cons c cs =>
          rw [matchAtoms] at h
          by_cases hm : atomMatches a c
          · rw [if_pos hm] at h
            cases hma : matchAtoms as cs with
            | none => rw [hma] at h; simp at h
            | some p =>
                obtain ⟨p1, p2⟩ := p
                rw [hma] at h
                simp at h
                rw [← h.1, ← h.2]
                simp [ih cs p1 p2 hma]
          · rw [if_neg hm] at h; simp at h

/-- A successful lazy capture splits the subject, and the capture is
non-empty. -/
theorem lazyCapture_parts :
    ∀ (suf : List Atom) (s cap con rest : Str),
      lazyCapture suf s = some (cap, con, rest) →
        s = cap ++ con ++ rest ∧ cap ≠ [] := by
  intro suf s
  induction s with
  | nil => intro cap con rest h; simp [lazyCapture] at h
  | cons c cs ih =>
      intro cap con rest h
      rw [lazyCapture] at h
      by_cases hlt : isLineTerm c
      · rw [if_pos hlt] at h; simp at h
      · rw [if_neg hlt] at h
        cases hma : matchAtoms suf cs with
        | some p =>
            obtain ⟨p1, p2⟩ := p
            rw [hma] at h
            simp at h
            rw [← h.1, ← h.2.1, ← h.2.2]
            have := matchAtoms_parts suf cs p1 p2 hma
            exact ⟨by simp [this], by simp⟩
        | none =>
            rw [hma] at h
            cases hlc : lazyCapture suf cs with
            | none => rw [hlc] at h; simp at h
            | some q =>
                obtain ⟨q1, q2, q3⟩ := q
                rw [hlc] at h
                simp at h
                rw [← h.1, ← h.2.1, ← h.2.2]
                have := ih q1 q2 q3 hlc
                exact ⟨by simp [this.1], by simp⟩

/-- A successful match at the current position splits the subject and the
full match is non-empty. -/
theorem execAtStart_parts (pre suf : List Atom) (s fm cap rest : Str)
    (h : execAtStart pre suf s = some (fm, cap, rest)) :
    s = fm ++ rest ∧ fm ≠ [] := by
  unfold execAtStart at h
  cases hma : matchAtoms pre s with
  | none => rw [hma] at h; simp at h
  | some p =>
      obtain ⟨p1, p2⟩ := p
      rw [hma] at h
      dsimp only at h
      cases hlc : lazyCapture suf p2 with
      | none => rw [hlc] at h; simp at h
      | some q =>
          obtain ⟨q1, q2, q3⟩ := q
          rw [hlc] at h
          dsimp only [Option.map] at h
          injection h with h
          injection h with hfm h
          injection h with hcap hrest
          subst hfm hcap hrest
          have h1 := matchAtoms_parts pre s p1 p2 hma
          have h2 := lazyCapture_parts suf p2 q1 q2 q3 hlc
          constructor
          · simp [h1, h2.1]
          · intro hcontra
            rcases List.append_eq_nil.mp ((List.append_eq_nil.mp hcontra).1) with ⟨_, hq1⟩
            exact h2.2 hq1

/-- A successful search splits the subject and the full match is
non-empty. -/
theorem findMatch_parts :
    ∀ (pre suf : List Atom) (s b fm cap rest : Str),
      findMatch pre suf s = some (b, fm, cap, rest) →
        s = b ++ fm ++ rest ∧ fm ≠ [] := by
  intro pre suf s
  induction s with
  | nil =>
      intro b fm cap rest h
      rw [findMatch] at h
      cases hex : execAtStart pre suf [] with
      | none => rw [hex] at h; simp at h
      | some r =>
          obtain ⟨r1, r2, r3⟩ := r
          rw [hex] at h
          dsimp only [Option.map] at h
          injection h with h
          injection h with hb h
          injection h with hfm h
          injection h with hcap hrest
          subst hb hfm hrest
          have := execAtStart_parts pre suf [] r1 r2 r3 hex
          exact ⟨by simp [← this.1], this.2⟩
  | cons c cs ih =>
      intro b fm cap rest h
      rw [findMatch] at h
      cases hex : execAtStart pre suf (c :: cs) with
      | some r =>
          obtain ⟨r1, r2, r3⟩ := r
          rw [hex] at h
          dsimp only at h
          injection h with h
          injection h with hb h
          injection h with hfm h
          injection h with hcap hrest
          subst hb hfm hrest
          have := execAtStart_parts pre suf (c :: cs) r1 r2 r3 hex
          exact ⟨by simpa using this.1, this.2⟩
      | none =>
          rw [hex] at h
          dsimp only at h
          cases hfm2 : findMatch pre suf cs with
          | none => rw [hfm2] at h; simp at h
          | some r =>
              obtain ⟨r1, r2, r3, r4⟩ := r
              rw [hfm2] at h
              dsimp only [Option.map] at h
              injection h with h
              injection h with hb h
              injection h with hfm h
              injection h with hcap hrest
              subst hb hfm hrest
              have := ih r1 r2 r3 r4 hfm2
              exact ⟨by simp [this.1], this.2⟩

/-- The rest after a found match is strictly shorter than the subject. -/
theorem findMatch_rest_lt (pre suf : List Atom) (s b fm cap rest : Str)
    (h : findMatch pre suf s = some (b, fm, cap, rest)) :
    rest.length < s.length := by
  have hp := findMatch_parts pre suf s b fm cap rest h
  have : s.length = b.length + fm.length + rest.length := by
    simp [hp.1]; omega
  have hfm : 0 < fm.length := List.length_pos.mpr hp.2
  omega

/-- The exec loop result does not depend on the fuel, once sufficient. -/
theorem scanAllF_congr (pre suf : List Atom) :
    ∀ (f1 f2 : Nat) (s : Str), s.length < f1 → s.length < f2 →
      scanAllF pre suf f1 s = scanAllF pre suf f2 s := by
  intro f1
  induction f1 with
  | zero => intro f2 s h1; omega
  | succ f1 ih =>
      intro f2 s h1 h2
      cases f2 with
      | zero => omega
      | succ f2 =>
          rw [scanAllF, scanAllF]
          cases hf : findMatch pre suf s with
          | none => rfl
          | some r =>
              obtain ⟨r1, r2, r3, r4⟩ := r
              have hlt := findMatch_rest_lt pre suf s r1 r2 r3 r4 hf
              have e1 := ih f2 r4 (by omega) (by omega)
              simp [e1]

/-- One-step unfolding of the match scan. -/
theorem scanAll_eq (pre suf : List Atom) (s : Str) :
    scanAll pre suf s =
      match findMatch pre suf s with
      | none => []
      | some r => (r.2.1, r.2.2.1) :: scanAll pre suf r.2.2.2 := by
  unfold scanAll
  rw [scanAllF]
  cases hf : findMatch pre suf s with
  | none => rfl
  | some r =>
      obtain ⟨r1, r2, r3, r4⟩ := r
      have hlt := findMatch_rest_lt pre suf s r1 r2 r3 r4 hf
      have e1 := scanAllF_congr pre suf s.length (r4.length + 1) r4 (by omega) (by omega)
      simp [e1, scanAll]

/-! ## Refinement of the verification engine -/

/-- The inner verification loop appends exactly the entries of the matches
whose secret is absent, in match order. -/
theorem verifyValueLoop_spec (exq : Str → Option Str → Bool) (k : Str) :
    ∀ (ms : List (Str × Str)) (acc : List MissingEntry),
      verifyValueLoop exq k ms acc =
        acc ++ (ms.filter (fun m => !(exq (serviceOf m.2) (accountOf m.2)))).map
          (fun m => ⟨k, serviceOf m.2, accountOf m.2⟩) := by
  intro ms
  induction ms with
  | nil => intro acc; simp [verifyValueLoop]
  | cons m ms ih =>
      intro acc
      rw [verifyValueLoop]
      cases hx : exq (serviceOf m.2) (accountOf m.2) with
      | true => simp [hx, ih, List.filter_cons]
      | false => simp [hx, ih, List.filter_cons]

/-- The entry loop appends exactly the spec-side missing-secrets list. -/
theorem verifyLoop_spec (pre suf : List Atom) (exq : Str → Option Str → Bool) :
    ∀ (env : List (Str × JSVal)) (acc : List MissingEntry),
      verifyLoop pre suf exq env acc = acc ++ specMissingSecrets pre suf exq env := by
  intro env
  induction env with
  | nil => intro acc; simp [verifyLoop, specMissingSecrets]
  | cons kv rest ih =>
      intro acc
      obtain ⟨k, v⟩ := kv
      cases v with
      | str s =>
          rw [verifyLoop, ih, verifyValueLoop_spec]
          simp [specMissingSecrets]
      | nonstr t =>
          rw [verifyLoop, ih]
          simp [specMissingSecrets]

/-! ## Fail-fast facts about the resolution engine -/

/-- When the first `get` failure along the matches of a value has message
`e`, the inner resolution loop throws the wrapping error for `e`. -/
theorem resolveLoop_error (get : Str → Option Str → Except Str Str) (k : Str) :
    ∀ (ms : List (Str × Str)) (nv e : Str),
      firstGetError get (ms.map (fun m => (serviceOf m.2, accountOf m.2))) = some e →
      resolveLoop get k ms nv = .error (resolveErrMsg k e) := by
  intro ms
  induction ms with
  | nil => intro nv e h; simp [firstGetError] at h
  | cons m ms ih =>
      intro nv e h
      rw [List.map_cons, firstGetError] at h
      rw [resolveLoop]
      cases hg : get (serviceOf m.2) (accountOf m.2) with
      | error e2 =>
          rw [hg] at h
          dsimp only at h
          injection h with h
          rw [← h]
      | ok secret =>
          rw [hg] at h
          dsimp only at h
          exact ih _ e h

/-- When no `get` along the matches of a value fails, the inner resolution
loop succeeds. -/
theorem resolveLoop_ok (get : Str → Option Str → Except Str Str) (k : Str) :
    ∀ (ms : List (Str × Str)) (nv : Str),
      firstGetError get (ms.map (fun m => (serviceOf m.2, accountOf m.2))) = none →
      ∃ nv2, resolveLoop get k ms nv = .ok nv2 := by
  intro ms
  induction ms with
  | nil => intro nv _; exact ⟨nv, rfl⟩
  | cons m ms ih =>
      intro nv h
      rw [List.map_cons, firstGetError] at h
      rw [resolveLoop]
      cases hg : get (serviceOf m.2) (accountOf m.2) with
      | error e2 => rw [hg] at h; dsimp only at h; exact absurd h (by simp)
      | ok secret =>
          rw [hg] at h
          dsimp only at h
          exact ih _ h

/-- Without a first failure there is no failure at all. -/
theorem firstGetError_none (get : Str → Option Str → Except Str Str) :
    ∀ (rs : List (Str × Option Str)),
      firstGetError get rs = none →
      rs.any (fun r => exIsError (get r.1 r.2)) = false := by
  intro rs
  induction rs with
  | nil => intro _; rfl
  | cons r rs ih =>
      intro h
      rw [firstGetError] at h
      rw [List.any_cons]
      cases hg : get r.1 r.2 with
      | error e => rw [hg] at h; dsimp only at h; exact absurd h (by simp)
      | ok _ =>
          rw [hg] at h
          dsimp only at h
          have hrest := ih h
          simp only [hg, exIsError, Bool.false_or]
          exact hrest

/-- C3: for every environment mapping and every provider, verifyEnvironment
returns success true if and only if missingSecrets is empty, and
missingSecrets contains exactly one {key, service, account} entry per
reference occurrence for which the provider's `exists` returned false,
ordered by the mapping's insertion order of keys and then left-to-right
within each value. -/
theorem C3_verify_spec (pre suf : List Atom) (exq : Str → Option Str → Bool)
    (env : List (Str × JSVal)) :
    (verifyEnvironment pre suf exq env).missingSecrets = specMissingSecrets pre suf exq env ∧
    ((verifyEnvironment pre suf exq env).success = true ↔
      (verifyEnvironment pre suf exq env).missingSecrets = []) := by
  constructor
  · show verifyLoop pre suf exq env [] = specMissingSecrets pre suf exq env
    simpa using verifyLoop_spec pre suf exq env []
  · show ((verifyLoop pre suf exq env []).length == 0) = true ↔
      (verifyLoop pre suf exq env []) = []
    simp

/-- C2: if the provider's `get` fails for any reference in any value, then
resolveSecrets fails as a whole with the error built from the first key
being processed at failure time and the underlying cause's message, and in
particular it does not return any (partially substituted) mapping as a
success value. -/
theorem C2_failFast (pre suf : List Atom) (get : Str → Option Str → Except Str Str)
    (env : List (Str × JSVal)) (h : hasGetFailure pre suf get env = true) :
    ∃ k e, firstFailure pre suf get env = some (k, e) ∧
      resolveSecrets pre suf get env = .error (resolveErrMsg k e) := by
  induction env with
  | nil => simp [hasGetFailure] at h
  | cons kv rest ih =>
      obtain ⟨k, v⟩ := kv
      cases v with
      | nonstr t =>
          rw [hasGetFailure, List.any_cons] at h
          dsimp only at h
          rw [Bool.false_or] at h
          obtain ⟨k2, e2, hff, hres⟩ := ih h
          refine ⟨k2, e2, ?_, ?_⟩
          · rw [firstFailure]; exact hff
          · rw [resolveSecrets, hres]; rfl
      | str v =>
          cases hfe : firstGetError get (refsOf pre suf v) with
          | some e =>
              refine ⟨k, e, ?_, ?_⟩
              · rw [firstFailure, hfe]
              · rw [resolveSecrets, resolveLoop_error get k (scanAll pre suf v) v e hfe]
          | none =>
              have hany := firstGetError_none get (refsOf pre suf v) hfe
              rw [hasGetFailure, List.any_cons] at h
              dsimp only at h
              rw [hany, Bool.false_or] at h
              obtain ⟨k2, e2, hff, hres⟩ := ih h
              obtain ⟨nv2, hnv⟩ := resolveLoop_ok get k (scanAll pre suf v) v hfe
              refine ⟨k2, e2, ?_, ?_⟩
              · rw [firstFailure, hfe]; exact hff
              · rw [resolveSecrets, hnv, hres]; rfl

/-- C9: resolveSecrets returns a mapping with exactly the key list of its
input whenever it succeeds, and on a mapping none of whose values contains
a reference it succeeds with the input mapping itself — non-string and
reference-free values pass through unchanged. -/
theorem C9_resolve_shape (pre suf : List Atom) (get : Str → Option Str → Except Str Str)
    (env : List (Str × JSVal)) :
    (∀ out, resolveSecrets pre suf get env = .ok out →
      out.map Prod.fst = env.map Prod.fst) ∧
    (envNoRefs pre suf env = true → resolveSecrets pre suf get env = .ok env) := by
  induction env with
  | nil =>
      constructor
      · intro out h
        rw [resolveSecrets] at h
        injection h with h
        rw [← h]
      · intro _; rfl
  | cons kv rest ih =>
      obtain ⟨k, v⟩ := kv
      cases v with
      | nonstr t =>
          constructor
          · intro out h
            rw [resolveSecrets] at h
            cases hr : resolveSecrets pre suf get rest with
            | error e => rw [hr] at h; simp [Except.map] at h
            | ok out2 =>
                rw [hr] at h
                dsimp only [Except.map] at h
                injection h with h
                rw [← h]
                simp [ih.1 out2 hr]
          · intro hno
            have hrest : envNoRefs pre suf rest = true := by
              rw [envNoRefs, List.all_cons] at hno
              exact ((Bool.and_eq_true _ _).mp hno).2
            rw [resolveSecrets, ih.2 hrest]
            rfl
      | str v =>
          constructor
          · intro out h
            rw [resolveSecrets] at h
            cases hl : resolveLoop get k (scanAll pre suf v) v with
            | error e => rw [hl] at h; simp at h
            | ok nv =>
                rw [hl] at h
                cases hr : resolveSecrets pre suf get rest with
                | error e => rw [hr] at h; simp [Except.map] at h
                | ok out2 =>
                    rw [hr] at h
                    dsimp only [Except.map] at h
                    injection h with h
                    rw [← h]
                    simp [ih.1 out2 hr]
          · intro hno
            rw [envNoRefs, List.all_cons] at hno
            obtain ⟨hhead, htail⟩ := (Bool.and_eq_true _ _).mp hno
            dsimp only at hhead
            have hempty : scanAll pre suf v = [] := by simpa using hhead
            rw [resolveSecrets, hempty]
            dsimp only [resolveLoop]
            rw [ih.2 htail]
            rfl

/-! ## Locating a single reference -/

/-- A list of literal atoms matches exactly its own characters. -/
theorem matchAtoms_lits :
    ∀ (lits s : Str), matchAtoms (lits.map Atom.lit) (lits ++ s) = some (lits, s) := by
  intro lits
  induction lits with
  | nil => intro s; simp [matchAtoms]
  | cons c cs ih => intro s; simp [matchAtoms, atomMatches, ih]

/-- The lazy capture before a one-literal suffix stops at the first
occurrence of the suffix character. -/
theorem lazyCapture_exact (x : Char) :
    ∀ (cap post : Str), cap ≠ [] →
      (∀ c ∈ cap, c ≠ x ∧ isLineTerm c = false) →
      lazyCapture [Atom.lit x] (cap ++ x :: post) = some (cap, [x], post) := by
  intro cap
  induction cap with
  | nil => intro post h _; exact absurd rfl h
  | cons c cs ih =>
      intro post _ hc
      have hprops := hc c (by simp)
      rw [List.cons_append, lazyCapture, if_neg (by simp [hprops.2])]
      cases cs with
      | nil => simp [matchAtoms, atomMatches]
      | cons c2 cs2 =>
          have hprops2 := hc c2 (by simp)
          have hne2 : ¬ (x = c2) := fun heq => hprops2.1 heq.symm
          have hma : matchAtoms [Atom.lit x] ((c2 :: cs2) ++ x :: post) = none := by
            rw [List.cons_append, matchAtoms, if_neg (by simp [atomMatches, hne2])]
          rw [hma, ih post (by simp) (fun d hd => hc d (by simp [hd]))]
          rfl

/-- The full pattern succeeds right at a reference whose capture avoids
the suffix character and line terminators. -/
theorem execAtStart_ref (lits : Str) (x : Char) (cap post : Str)
    (hcap : cap ≠ []) (hc : ∀ c ∈ cap, c ≠ x ∧ isLineTerm c = false) :
    execAtStart (lits.map Atom.lit) [Atom.lit x] (lits ++ (cap ++ x :: post)) =
      some (lits ++ cap ++ [x], cap, post) := by
  unfold execAtStart
  rw [matchAtoms_lits]
  dsimp only
  rw [lazyCapture_exact x cap post hcap hc]
  simp

/-- The search skips any text free of the pattern's first literal. -/
theorem findMatch_skip (h0 : Char) (pre2 suf : List Atom) :
    ∀ (skip s : Str), (∀ c ∈ skip, c ≠ h0) →
      findMatch (Atom.lit h0 :: pre2) suf (skip ++ s) =
        (findMatch (Atom.lit h0 :: pre2) suf s).map
          (fun r => (skip ++ r.1, r.2.1, r.2.2.1, r.2.2.2)) := by
  intro skip
  induction skip with
  | nil =>
      intro s _
      simp only [List.nil_append]
      cases findMatch (Atom.lit h0 :: pre2) suf s <;> simp
  | cons c skip ih =>
      intro s hc
      have hne : ¬ (h0 = c) := fun heq => (hc c (by simp)) heq.symm
      have hex : execAtStart (Atom.lit h0 :: pre2) suf (c :: (skip ++ s)) = none := by
        unfold execAtStart
        rw [matchAtoms, if_neg (by simp [atomMatches, hne])]
      rw [List.cons_append, findMatch, hex, ih s (fun d hd => hc d (by simp [hd]))]
      cases findMatch (Atom.lit h0 :: pre2) suf s <;> simp

/-- Text free of the pattern's first literal contains no match. -/
theorem findMatch_none (h0 : Char) (pre2 suf : List Atom) :
    ∀ (s : Str), (∀ c ∈ s, c ≠ h0) →
      findMatch (Atom.lit h0 :: pre2) suf s = none := by
  intro s
  induction s with
  | nil => intro _; simp [findMatch, execAtStart, matchAtoms]
  | cons c cs ih =>
      intro hc
      have hne : ¬ (h0 = c) := fun heq => (hc c (by simp)) heq.symm
      have hex : execAtStart (Atom.lit h0 :: pre2) suf (c :: cs) = none := by
        unfold execAtStart
        rw [matchAtoms, if_neg (by simp [atomMatches, hne])]
      rw [findMatch, hex, ih (fun d hd => hc d (by simp [hd]))]
      rfl

/-- The search finds the reference at the start of the remaining text. -/
theorem findMatch_at_ref (h0 : Char) (tail : Str) (x : Char) (cap post : Str)
    (hcap : cap ≠ []) (hc : ∀ c ∈ cap, c ≠ x ∧ isLineTerm c = false) :
    findMatch ((h0 :: tail).map Atom.lit) [Atom.lit x] ((h0 :: tail) ++ (cap ++ x :: post)) =
      some ([], (h0 :: tail) ++ cap ++ [x], cap, post) := by
  have hex := execAtStart_ref (h0 :: tail) x cap post hcap hc
  simp only [List.map_cons, List.cons_append] at hex ⊢
  rw [findMatch, hex]

/-- A value that is one reference between texts free of the prefix's first
character scans to exactly that one match. -/
theorem scanAll_single_ref (h0 : Char) (tail : Str) (x : Char) (skip cap post : Str)
    (hskip : ∀ c ∈ skip, c ≠ h0) (hpost : ∀ c ∈ post, c ≠ h0)
    (hcap : cap ≠ []) (hc : ∀ c ∈ cap, c ≠ x ∧ isLineTerm c = false) :
    scanAll ((h0 :: tail).map Atom.lit) [Atom.lit x]
        (skip ++ ((h0 :: tail) ++ (cap ++ x :: post))) =
      [((h0 :: tail) ++ cap ++ [x], cap)] := by
  rw [scanAll_eq]
  rw [List.map_cons, findMatch_skip h0 _ _ skip _ hskip]
  have hat := findMatch_at_ref h0 tail x cap post hcap hc
  simp only [List.map_cons] at hat
  rw [hat]
  dsimp only [Option.map]
  rw [scanAll_eq, findMatch_none h0 _ _ post hpost]

/-! ## Splitting and replacement facts -/

/-- Splitting at the first separator after a separator-free head. -/
theorem jsSplit_sep_append (sep : Char) :
    ∀ (x r : Str), (∀ c ∈ x, c ≠ sep) →
      jsSplit sep (x ++ sep :: r) = x :: jsSplit sep r := by
  intro x
  induction x with
  | nil => intro r _; rw [List.nil_append, jsSplit, if_pos rfl]
  | cons c cs ih =>
      intro r hx
      have hne : ¬ (c = sep) := hx c (by simp)
      rw [List.cons_append, jsSplit, if_neg hne, ih r (fun d hd => hx d (by simp [hd]))]

/-- A separator-free string splits into itself alone. -/
theorem jsSplit_no_sep (sep : Char) :
    ∀ (x : Str), (∀ c ∈ x, c ≠ sep) → jsSplit sep x = [x] := by
  intro x
  induction x with
  | nil => intro _; rfl
  | cons c cs ih =>
      intro hx
      have hne : ¬ (c = sep) := hx c (by simp)
      rw [jsSplit, if_neg hne, ih (fun d hd => hx d (by simp [hd]))]

/-- The service extracted from a capture is the text before its first
slash. -/
theorem serviceOf_eq (x r : Str) (hx : ∀ c ∈ x, c ≠ '/') :
    serviceOf (x ++ '/' :: r) = x := by
  unfold serviceOf
  rw [jsSplit_sep_append '/' x r hx]
  rfl

/-- When the text after the first slash is slash-free, it is the extracted
account in full. -/
theorem accountOf_last (x y : Str) (hx : ∀ c ∈ x, c ≠ '/') (hy : ∀ c ∈ y, c ≠ '/') :
    accountOf (x ++ '/' :: y) = some y := by
  unfold accountOf
  rw [jsSplit_sep_append '/' x y hx, jsSplit_no_sep '/' y hy]
  rfl

/-- The account extracted from a capture with two or more slashes is only
the text between the first and the second slash. -/
theorem accountOf_mid (x y z : Str) (hx : ∀ c ∈ x, c ≠ '/') (hy : ∀ c ∈ y, c ≠ '/') :
    accountOf (x ++ '/' :: (y ++ '/' :: z)) = some y := by
  unfold accountOf
  rw [jsSplit_sep_append '/' x _ hx, jsSplit_sep_append '/' y z hy]
  simp

/-- Every list is a Boolean prefix of itself followed by anything. -/
theorem isPrefixOf_append_self :
    ∀ (p t : Str), p.isPrefixOf (p ++ t) = true := by
  intro p
  induction p with
  | nil => intro t; simp [List.isPrefixOf]
  | cons c cs ih => intro t; simp [List.isPrefixOf, ih]

/-- The first occurrence of a pattern that starts the tail of a text whose
head avoids the pattern's first character is located exactly there. -/
theorem splitOnFirst_skip (h0 : Char) (ptail : Str) :
    ∀ (skip t : Str), (∀ c ∈ skip, c ≠ h0) →
      splitOnFirst (h0 :: ptail) (skip ++ ((h0 :: ptail) ++ t)) = some (skip, t) := by
  intro skip
  induction skip with
  | nil =>
      intro t _
      rw [List.nil_append, List.cons_append, splitOnFirst,
        if_pos (by rw [← List.cons_append]; exact isPrefixOf_append_self (h0 :: ptail) t)]
      rw [← List.cons_append, List.drop_left]
  | cons c cs ih =>
      intro t hc
      have hne : ¬ (h0 = c) := fun heq => (hc c (by simp)) heq.symm
      have hnp : ¬ ((h0 :: ptail).isPrefixOf (c :: (cs ++ ((h0 :: ptail) ++ t))) = true) := by
        simp [List.isPrefixOf, hne]
      rw [List.cons_append, splitOnFirst, if_neg hnp,
        ih t (fun d hd => hc d (by simp [hd]))]
      rfl

/-- A replacement free of dollar signs is substituted verbatim. -/
theorem getSubstitution_no_dollar (m b a : Str) :
    ∀ (repl : Str), (∀ c ∈ repl, c ≠ '$') → getSubstitution m b a repl = repl := by
  intro repl
  induction repl with
  | nil => intro _; rfl
  | cons c cs ih =>
      intro hc
      rw [getSubstitution.eq_def]
      dsimp only
      rw [if_neg (hc c (by simp))]
      rw [ih (fun d hd => hc d (by simp [hd]))]

/-- Replacing the one pattern occurrence in `skip ++ pattern ++ t` by a
dollar-free replacement yields `skip ++ replacement ++ t`. -/
theorem jsReplace_ref (h0 : Char) (ptail : Str) (skip t repl : Str)
    (hskip : ∀ c ∈ skip, c ≠ h0) (hrepl : ∀ c ∈ repl, c ≠ '$') :
    jsReplace (h0 :: ptail) repl (skip ++ ((h0 :: ptail) ++ t)) = skip ++ repl ++ t := by
  unfold jsReplace
  rw [splitOnFirst_skip h0 ptail skip t hskip]
  dsimp only
  rw [getSubstitution_no_dollar _ _ _ repl hrepl]

/-- C1 (amended): with the default prefix and suffix, for a string value
containing exactly one reference — surrounding text free of `$`, service
and account free of `/`, `)` and line terminators — and a provider whose
secret for that reference is free of `$`, resolveSecrets replaces the
reference occurrence with exactly the secret, leaving the surrounding text
unchanged. (As stated originally the claim is false: the secret is passed
through JavaScript replacement-pattern substitution, so `$`-patterns in it
are interpreted rather than inserted verbatim, and each match replaces
only the first occurrence of its text.) -/
theorem C1_single_ref (k svc acct skip post secret : Str)
    (g : Str → Option Str → Except Str Str)
    (hg : g svc (some acct) = .ok secret)
    (hskip : ∀ c ∈ skip, c ≠ '$')
    (hpost : ∀ c ∈ post, c ≠ '$')
    (hsecret : ∀ c ∈ secret, c ≠ '$')
    (hsvc : ∀ c ∈ svc, c ≠ '/' ∧ c ≠ ')' ∧ isLineTerm c = false)
    (hacct : ∀ c ∈ acct, c ≠ '/' ∧ c ≠ ')' ∧ isLineTerm c = false) :
    resolveSecrets defPre defSuf g
        [(k, .str (skip ++ (defaultPfx ++ ((svc ++ '/' :: acct) ++ ')' :: post))))] =
      .ok [(k, .str (skip ++ secret ++ post))] := by
  have hq : defaultPfx = '$' :: "(taemno os://".data := rfl
  have hcapne : (svc ++ '/' :: acct) ≠ [] := by simp
  have hcapprops : ∀ c ∈ svc ++ '/' :: acct, c ≠ ')' ∧ isLineTerm c = false := by
    intro c hcmem
    rcases List.mem_append.mp hcmem with h1 | h2
    · exact ⟨(hsvc c h1).2.1, (hsvc c h1).2.2⟩
    · rcases List.mem_cons.mp h2 with h3 | h4
      · subst h3; exact ⟨by decide, by decide⟩
      · exact ⟨(hacct c h4).2.1, (hacct c h4).2.2⟩
  have hscan : scanAll defPre defSuf
      (skip ++ (defaultPfx ++ ((svc ++ '/' :: acct) ++ ')' :: post))) =
      [(defaultPfx ++ (svc ++ '/' :: acct) ++ [')'], svc ++ '/' :: acct)] := by
    show scanAll (defaultPfx.map Atom.lit) [Atom.lit ')'] _ = _
    rw [hq]
    exact scanAll_single_ref '$' "(taemno os://".data ')' skip (svc ++ '/' :: acct) post
      hskip hpost hcapne hcapprops
  have hsvcof : serviceOf (svc ++ '/' :: acct) = svc :=
    serviceOf_eq svc acct (fun c hc => (hsvc c hc).1)
  have hacctof : accountOf (svc ++ '/' :: acct) = some acct :=
    accountOf_last svc acct (fun c hc => (hsvc c hc).1) (fun c hc => (hacct c hc).1)
  have hrep : jsReplace (defaultPfx ++ (svc ++ '/' :: acct) ++ [')']) secret
      (skip ++ (defaultPfx ++ ((svc ++ '/' :: acct) ++ ')' :: post))) =
      skip ++ secret ++ post := by
    have h1 : defaultPfx ++ (svc ++ '/' :: acct) ++ [')'] =
        '$' :: ("(taemno os://".data ++ (svc ++ '/' :: acct) ++ [')']) := by
      rw [hq]; simp
    have h2 : skip ++ (defaultPfx ++ ((svc ++ '/' :: acct) ++ ')' :: post)) =
        skip ++ (('$' :: ("(taemno os://".data ++ (svc ++ '/' :: acct) ++ [')'])) ++ post) := by
      rw [hq]; simp
    rw [h1, h2]
    exact jsReplace_ref '$' _ skip post secret hskip hsecret
  rw [resolveSecrets, hscan, resolveLoop]
  dsimp only
  rw [hsvcof, hacctof, hg]
  dsimp only
  rw [resolveLoop, hrep]
  rfl

/-- Witness for C1 (amended) at a concrete mapping, provider and secret. -/
theorem C1_single_ref_witness :
    resolveSecrets defPre defSuf (fun _ _ => .ok "XY".data)
        [("KEY".data, .str ("pre-".data ++
          (defaultPfx ++ (("svc".data ++ '/' :: "acct".data) ++ ')' :: "-post".data))))] =
      .ok [("KEY".data, .str ("pre-".data ++ "XY".data ++ "-post".data))] :=
  C1_single_ref "KEY".data "svc".data "acct".data "pre-".data "-post".data "XY".data
    (fun _ _ => .ok "XY".data) rfl (by decide) (by decide) (by decide) (by decide) (by decide)

/-- C1 (counterexample): the claim as stated fails — for the value
`$(taemno os://s/a)` and a provider returning the secret `$$`,
resolveSecrets produces `$` (JavaScript replacement-pattern substitution
collapses `$$`), not the verbatim secret `$$`. -/
theorem C1_counterexample :
    resolveSecrets defPre defSuf (fun _ _ => .ok "$$".data)
        [("K".data, .str "$(taemno os://s/a)".data)] =
      .ok [("K".data, .str "$".data)] ∧ "$".data ≠ "$$".data := by
  exact ⟨rfl, by decide⟩

/-! ## The escaping treats only dollar, open and close parens -/

/-- One step of the prefix escaping: `$` and `(` gain a backslash, every
other character passes through. -/
theorem escPfx_cons (c : Char) (rest : Str) :
    escPfx (c :: rest) = (if c = '$' ∨ c = '(' then ['\\', c] else [c]) ++ escPfx rest := by
  by_cases h1 : c = '$'
  · subst h1; simp [escPfx, escGlobal]
  · by_cases h2 : c = '('
    · subst h2; simp [escPfx, escGlobal]
    · simp [escPfx, escGlobal, h1, h2]

/-- One step of the suffix escaping: only `)` gains a backslash. -/
theorem escSfx_cons (c : Char) (rest : Str) :
    escSfx (c :: rest) = (if c = ')' then ['\\', ')'] else [c]) ++ escSfx rest := by
  by_cases h1 : c = ')'
  · subst h1; simp [escSfx, escGlobal]
  · simp [escSfx, escGlobal, h1]

/-- An escaped prefix whose only metacharacters are `$` and `(` (and no
`.`) compiles to the literal atoms of its characters. -/
theorem parseAtoms_escPfx :
    ∀ (p : Str), (∀ c ∈ p, (isRegexMeta c = false ∨ c = '$' ∨ c = '(') ∧ c ≠ '.') →
      parseAtoms (escPfx p) = some (p.map Atom.lit) := by
  intro p
  induction p with
  | nil => intro _; rfl
  | cons c rest ih =>
      intro hc
      obtain ⟨hmeta, hdot⟩ := hc c (by simp)
      have ihr := ih (fun d hd => hc d (by simp [hd]))
      rw [escPfx_cons]
      simp only [parseAtoms] at ihr
      by_cases h1 : c = '$' ∨ c = '('
      · rw [if_pos h1]
        have hal : c.isAlphanum = false := by
          rcases h1 with h | h <;> subst h <;> decide
        show parseAtomsAux false ('\\' :: c :: escPfx rest) = _
        rw [parseAtomsAux, if_pos rfl, parseAtomsAux, hal]
        simp [ihr]
      · rw [if_neg h1]
        rcases hmeta with hmeta | hmeta
        · have hbs : ¬ (c = '\\') := by
            intro h; subst h; simp [isRegexMeta] at hmeta
          show parseAtomsAux false (c :: escPfx rest) = _
          rw [parseAtomsAux, if_neg hbs, if_neg hdot, if_neg (by simp [hmeta])]
          simp [ihr]
        · exact absurd hmeta (by intro h; exact h1 h)

/-- An escaped suffix whose only metacharacter is `)` (and no `.`)
compiles to the literal atoms of its characters. -/
theorem parseAtoms_escSfx :
    ∀ (s : Str), (∀ c ∈ s, (isRegexMeta c = false ∨ c = ')') ∧ c ≠ '.') →
      parseAtoms (escSfx s) = some (s.map Atom.lit) := by
  intro s
  induction s with
  | nil => intro _; rfl
  | cons c rest ih =>
      intro hc
      obtain ⟨hmeta, hdot⟩ := hc c (by simp)
      have ihr := ih (fun d hd => hc d (by simp [hd]))
      rw [escSfx_cons]
      simp only [parseAtoms] at ihr
      by_cases h1 : c = ')'
      · rw [if_pos h1]
        subst h1
        show parseAtomsAux false ('\\' :: ')' :: escSfx rest) = _
        rw [parseAtomsAux, if_pos rfl, parseAtomsAux,
          show (')'.isAlphanum) = false from rfl]
        simp [ihr]
      · rw [if_neg h1]
        rcases hmeta with hmeta | hmeta
        · have hbs : ¬ (c = '\\') := by
            intro h; subst h; simp [isRegexMeta] at hmeta
          show parseAtomsAux false (c :: escSfx rest) = _
          rw [parseAtomsAux, if_neg hbs, if_neg hdot, if_neg (by simp [hmeta])]
          simp [ihr]
        · exact absurd hmeta h1

/-- C4 (amended): the escaping performed before pattern compilation covers
exactly `$` and `(` in the prefix and `)` in the suffix; a configured
prefix or suffix is treated as literal text whenever its only
pattern-significant characters are those escaped ones — then the compiled
pattern is the sequence of its characters as literal atoms. (As stated
originally the claim is false: other metacharacters such as `.` are left
unescaped and keep their pattern meaning.) -/
theorem C4_escape_literal (p s : Str)
    (hp : ∀ c ∈ p, (isRegexMeta c = false ∨ c = '$' ∨ c = '(') ∧ c ≠ '.')
    (hs : ∀ c ∈ s, (isRegexMeta c = false ∨ c = ')') ∧ c ≠ '.') :
    compile p s = some (p.map Atom.lit, s.map Atom.lit) := by
  unfold compile
  rw [parseAtoms_escPfx p hp, parseAtoms_escSfx s hs]

/-- Witness for C4 (amended): a concrete prefix containing `$` and `(` and
a concrete plain suffix compile to all-literal atoms. -/
theorem C4_escape_literal_witness :
    compile "$(x".data "!".data =
      some ("$(x".data.map Atom.lit, "!".data.map Atom.lit) :=
  C4_escape_literal "$(x".data "!".data (by decide) (by decide)

/-- C4 (counterexample): the claim as stated fails — a prefix `a.`
containing the metacharacter `.` is compiled with `.` as a wildcard, so
the engine finds (and resolveSecrets rewrites) a reference in `abc)` even
though the literal text `a.` occurs nowhere in it. -/
theorem C4_counterexample :
    compile "a.".data ")".data = some ([Atom.lit 'a', Atom.dot], [Atom.lit ')']) ∧
    resolveSecrets [Atom.lit 'a', Atom.dot] [Atom.lit ')'] (fun _ _ => .ok "S".data)
        [("K".data, .str "abc)".data)] = .ok [("K".data, .str "S".data)] ∧
    splitOnFirst "a.".data "abc)".data = none :=
  ⟨rfl, rfl, rfl⟩

/-- C5 (amended): in the shared capture-splitting step of both engines,
the service is the text before the first `/` of the capture, and the
account is only the segment between the first and the second `/` — the
remainder after the second `/` is dropped (for a capture with exactly one
`/`, the account is everything after it). -/
theorem C5_split_segments (x y z : Str)
    (hx : ∀ c ∈ x, c ≠ '/') (hy : ∀ c ∈ y, c ≠ '/') :
    serviceOf (x ++ '/' :: (y ++ '/' :: z)) = x ∧
    accountOf (x ++ '/' :: (y ++ '/' :: z)) = some y ∧
    serviceOf (x ++ '/' :: y) = x ∧
    accountOf (x ++ '/' :: y) = some y :=
  ⟨serviceOf_eq x _ hx, accountOf_mid x y z hx hy,
   serviceOf_eq x y hx, accountOf_last x y hx hy⟩

/-- Witness for C5 (amended) at the capture `a/b/c`. -/
theorem C5_split_segments_witness :
    serviceOf "a/b/c".data = "a".data ∧ accountOf "a/b/c".data = some "b".data ∧
    serviceOf "a/b".data = "a".data ∧ accountOf "a/b".data = some "b".data :=
  C5_split_segments "a".data "b".data "c".data (by decide) (by decide)

/-- C5 (counterexample): the claim as stated fails — for the capture
`a/b/c` the account extracted by verifyEnvironment is `b`, not the
remainder `b/c`. -/
theorem C5_counterexample :
    verifyEnvironment defPre defSuf (fun _ _ => false)
        [("K".data, .str "$(taemno os://a/b/c)".data)] =
      ⟨false, [⟨"K".data, "a".data, some "b".data⟩]⟩ ∧
    some "b".data ≠ some "b/c".data :=
  ⟨rfl, by decide⟩

/-! ## The darwin provider never runs -/

/-- The darwin input validation always raises the pattern's syntax error:
its character class contains the out-of-order range underscore-to-at, so
no InvalidInputError and no backend call can ever be produced. -/
theorem validateInputs_broken (s a : Str) (key : Option Str) :
    validateInputs s a key = .error .invalidPattern := rfl

/-- C7: the validation character class of the darwin provider does not
compile (the range from `_` down to `@` is out of order), so for every
input — valid or invalid — set/get/delete raise the pattern's SyntaxError
instead of InvalidInputError, and no backend call is ever attempted. -/
theorem C7_validation_broken :
    parseClassRanges darwinClassBody = none ∧
    ∀ (s a : Str) (key : Option Str),
      validateInputs s a key = Except.error DarwinError.invalidPattern :=
  ⟨rfl, fun _ _ _ => rfl⟩

/-- C6 (amended): darwin's exists never throws — it converts every failure
of get into `false`; and since get always fails (broken validation
pattern, and a quoted-service mismatch besides), exists returns `false`
for every service and account, never propagating backend errors. -/
theorem C6_exists_swallows (kc : Keychain) (s a : Str) (key : Option Str) :
    existsD kc s a key = false ∧ getD kc s a key = .error .invalidPattern :=
  ⟨rfl, rfl⟩

/-- C6 (counterexample): the claim as stated fails — with the secret
present in the backend under the queried service and account, exists
still returns `false`, so `false` is not returned exactly when the secret
is not found. -/
theorem C6_counterexample :
    existsD ⟨[(("svc".data, "acct".data), "sec".data)]⟩ "svc".data "acct".data none = false ∧
    securityFind ⟨[(("svc".data, "acct".data), "sec".data)]⟩ "svc".data "acct".data =
      some "sec".data :=
  ⟨rfl, rfl⟩

/-- C8: the round trip is broken — set always fails with the validation
pattern's syntax error, and even past validation it would store the secret
under a service name wrapped in literal apostrophes while get queries the
bare service name, so get-after-set could not return the stored secret. -/
theorem C8_roundtrip_broken (kc : Keychain) (s a v : Str) :
    setD kc s a v none = .error DarwinError.invalidPattern ∧
    flagValue "-s".data (setArgs s a) = some (quoted s) ∧
    flagValue "-s".data (getArgs s a) = some s ∧
    quoted s ≠ s := by
  refine ⟨rfl, rfl, rfl, ?_⟩
  intro h
  have hlen := congrArg List.length h
  simp only [quoted, List.length_cons, List.length_append] at hlen
  omega

/-- C10 (amended): provider selection yields a provider on no platform at
all: the unconditional require of darwin.js fails with the validation
pattern's syntax error before the platform switch ever runs — macOS
included. -/
theorem C10_no_provider (p : Str) :
    selectProvider p = .error LoadError.badPattern := rfl

/-- C10 (counterexample): the claim as stated fails — on the `darwin`
platform the selector does not yield a provider but fails with the
pattern's syntax error (and on `linux` the failure is the same load
error, not an evaluation of the commented-out identifier). -/
theorem C10_counterexample :
    selectProvider "darwin".data = .error LoadError.badPattern ∧
    selectProvider "linux".data = .error LoadError.badPattern :=
  ⟨rfl, rfl⟩

/-- Witness for C2 at a concrete mapping whose single reference fails. -/
theorem C2_failFast_witness :
    ∃ k e, firstFailure defPre defSuf (fun _ _ => .error "boom".data)
        [("A".data, .str "$(taemno os://s/a)".data)] = some (k, e) ∧
      resolveSecrets defPre defSuf (fun _ _ => .error "boom".data)
        [("A".data, .str "$(taemno os://s/a)".data)] = .error (resolveErrMsg k e) :=
  C2_failFast defPre defSuf (fun _ _ => .error "boom".data)
    [("A".data, .str "$(taemno os://s/a)".data)] (by decide)

/-- Witness for C9 at a concrete reference-free mapping with a string and
a non-string value. -/
theorem C9_resolve_shape_witness :
    resolveSecrets defPre defSuf (fun _ _ => .error "e".data)
        [("A".data, .str "plain".data), ("B".data, .nonstr 0)] =
      .ok [("A".data, .str "plain".data), ("B".data, .nonstr 0)] ∧
    [("A".data, JSVal.str "plain".data), ("B".data, JSVal.nonstr 0)].map Prod.fst =
      [("A".data, JSVal.str "plain".data), ("B".data, JSVal.nonstr 0)].map Prod.fst := by
  have h := C9_resolve_shape defPre defSuf (fun _ _ => .error "e".data)
      [("A".data, .str "plain".data), ("B".data, .nonstr 0)]
  exact ⟨h.2 (by decide), h.1 _ (h.2 (by decide))⟩

end TaemnoEnv
